import Mathlib

/-!
Shallow embedding of the persistence core of `nf-gui.py` (AllowListStore /
SnapshotStore): `load_ips`, `save_ips`, and the `versions` endpoint
(snapshot listing and rollback), together with the theorems settling the
spec claims about them.

File contents are modelled as `String` (the file's bytes, decoded), the
snapshot directory as an association list from filename to file content,
and wall-clock readings of `datetime.datetime.now()` as explicit
`Timestamp` values passed in.  I/O or lock failures of individual
attempts inside the retry loops are modelled by a Boolean outcome oracle
(`true` = that attempt raises `IOError`/`OSError`).
-/

namespace NFGui

/-! ### Python string primitives -/

/-- Python string `<`: lexicographic comparison of the code-point lists.
Executable Boolean version (Lean's own `String` `<` does not reduce in the
kernel). -/
def charListLtB : List Char → List Char → Bool
  | _, [] => false
  | [], _ :: _ => true
  | a :: as, b :: bs => a < b || (a == b && charListLtB as bs)

/-- Python `a < b` on strings. -/
def strLtB (a b : String) : Bool := charListLtB a.data b.data

/-- Whitespace test used by Python `str.strip()` (restricted to the ASCII
whitespace that can actually occur around the stored addresses). -/
def isWs (c : Char) : Bool := c.isWhitespace

/-- Python `str.strip()` on the underlying character list: drop whitespace from
both ends. -/
def trimChars (l : List Char) : List Char :=
  ((l.dropWhile isWs).reverse.dropWhile isWs).reverse

/-- Python `line.strip()`. -/
def pyStrip (s : String) : String := ⟨trimChars s.data⟩

/-- Split a character list on `'\n'`: the segments between newline
characters (the final segment may be empty).  Together with `pyStrip`
this models Python's `for line in f` / `line.strip()`: Python keeps each
`'\n'` terminator attached to its line, but `strip()` removes it, so the
composite results coincide. -/
def splitNewlines : List Char → List (List Char)
  | [] => [[]]
  | c :: cs =>
    if c = '\n' then [] :: splitNewlines cs
    else
      match splitNewlines cs with
      | [] => [[c]]
      | l :: ls => (c :: l) :: ls

/-! ### load_ips -/

/-- Models `[line.strip() for line in f if line.strip()]` — the parse performed by
a successful read attempt of `load_ips`. -/
def load_parse (content : String) : List String :=
  ((splitNewlines content.data).map (fun l => pyStrip ⟨l⟩)).filter (fun s => s != "")

/-- The `for attempt in range(max_retries)` loop of `load_ips`, processing
the per-attempt failure outcomes front to back.  A failing attempt that is
not the last one sleeps 0.1s and continues; a failing last attempt returns
`[]`; a successful attempt returns the parsed list.  `none` models the
loop falling off the end (Python would return `None`); with the five
outcomes `load_ips` passes, that never happens. -/
def loadAttempts (content : String) : List Bool → Option (List String)
  | [] => none
  | fail :: rest =>
    if fail then
      match rest with
      | [] => some []
      | _ :: _ => loadAttempts content rest
    else some (load_parse content)

/-- Models `load_ips()`: `primary` is the content of `allowed_ips.txt` (`none` if
the file does not exist), `outcomes i` tells whether the `i`-th read/lock
attempt raises.  `max_retries = 5`. -/
def load_ips (primary : Option String) (outcomes : Nat → Bool) : Option (List String) :=
  match primary with
  | none => some []
  | some content =>
    loadAttempts content [outcomes 0, outcomes 1, outcomes 2, outcomes 3, outcomes 4]

/-! ### save_ips -/

/-- The body of `save_ips`'s write phase: `f.write(ip + "\n")` for each ip,
into a file opened with `'w'` (truncated). -/
def serialize (ips : List String) : String :=
  ⟨ips.flatMap (fun ip => ip.data ++ ['\n'])⟩

/-! ### Timestamps and backup names -/

/-- One reading of `datetime.datetime.now()`, at the precision
`strftime('%Y%m%d_%H%M%S_%f')` renders. -/
structure Timestamp where
  year : Nat
  month : Nat
  day : Nat
  hour : Nat
  minute : Nat
  second : Nat
  micro : Nat
  deriving DecidableEq

/-- Field ranges of an actual `datetime.datetime.now()` value (years
restricted to four digits, as `%Y` renders them). -/
def Timestamp.Valid (t : Timestamp) : Prop :=
  1000 ≤ t.year ∧ t.year ≤ 9999 ∧ 1 ≤ t.month ∧ t.month ≤ 12 ∧
  1 ≤ t.day ∧ t.day ≤ 31 ∧ t.hour ≤ 23 ∧ t.minute ≤ 59 ∧
  t.second ≤ 59 ∧ t.micro ≤ 999999

instance (t : Timestamp) : Decidable t.Valid := by
  unfold Timestamp.Valid; infer_instance

/-- Flatten a timestamp to one number; chronological precedence is
comparison of these numbers. -/
def Timestamp.key (t : Timestamp) : Nat :=
  ((((((t.year * 100 + t.month) * 100 + t.day) * 100 + t.hour) * 100 +
    t.minute) * 100 + t.second)) * 1000000 + t.micro

/-- Whether `t₁` is chronologically before `t₂`. -/
def Timestamp.Before (t₁ t₂ : Timestamp) : Prop := t₁.key < t₂.key

instance : DecidableRel Timestamp.Before := fun t₁ t₂ =>
  inferInstanceAs (Decidable (t₁.key < t₂.key))

/-- Decimal digit character. -/
def digitChar (d : Nat) : Char := Char.ofNat (48 + d)

/-- Zero-padded fixed-width decimal rendering, most significant digit
first (the behaviour of `%Y`, `%m`, `%d`, `%H`, `%M`, `%S`, `%f` on
in-range values). -/
def padDigits : Nat → Nat → List Char
  | 0, _ => []
  | w + 1, n => digitChar (n / 10 ^ w) :: padDigits w (n % 10 ^ w)

/-- Models `datetime.datetime.now().strftime('%Y%m%d_%H%M%S_%f')`. -/
def Timestamp.fmtData (t : Timestamp) : List Char :=
  padDigits 4 t.year ++ (padDigits 2 t.month ++ (padDigits 2 t.day ++
    ('_' :: (padDigits 2 t.hour ++ (padDigits 2 t.minute ++ (padDigits 2 t.second ++
    ('_' :: padDigits 6 t.micro)))))))

/-- The timestamp as a string. -/
def Timestamp.fmt (t : Timestamp) : String := ⟨t.fmtData⟩

/-- Models `f'allowed_ips_{timestamp}.txt'` — the snapshot's filename inside the
versions directory. -/
def backupName (t : Timestamp) : String := "allowed_ips_" ++ t.fmt ++ ".txt"

/-! ### Filesystem state -/

/-- The on-disk state the persistence core manipulates: the primary file
`allowed_ips.txt` (`none` when absent) and the files of the `versions`
snapshot directory as (filename, content) pairs.  A directory listing has
no inherent order; new snapshot files are prepended. -/
structure FSState where
  primary : Option String
  versions : List (String × String)
  deriving DecidableEq

/-- Models `os.listdir(VERSIONS_DIR)`: the snapshot filenames. -/
def listdir (s : FSState) : List String := s.versions.map Prod.fst

/-- Stable descending insertion: keep skipping while the existing element
is strictly greater, so that among equal keys earlier input elements come
first — the output characterizing every stable descending sort, in
particular Python's `sorted(…, reverse=True)`. -/
def insertDesc (x : String) : List String → List String
  | [] => [x]
  | y :: ys => if strLtB x y then y :: insertDesc x ys else x :: y :: ys

/-- Models `sorted(l, reverse=True)` (stable, descending by Python string `<`). -/
def pySortedDesc : List String → List String
  | [] => []
  | x :: xs => insertDesc x (pySortedDesc xs)

/-- Models `backups = sorted(os.listdir(VERSIONS_DIR), reverse=True)` — the
snapshot identifiers shown by the `versions` endpoint, i.e. `List()`. -/
def backups (s : FSState) : List String := pySortedDesc (listdir s)

/-! ### save_ips state effect (failure-free execution) -/

/-- The archive-before-overwrite step of `save_ips`: if the primary file
exists, copy its bytes to `versions/allowed_ips_<timestamp>.txt`, where
`t` is the `datetime.datetime.now()` reading. -/
def archiveStep (s : FSState) (t : Timestamp) : FSState :=
  match s.primary with
  | some content => { s with versions := (backupName t, content) :: s.versions }
  | none => s

/-- The state effect of a `save_ips(ips)` call whose single attempt
succeeds (the failure-free execution; the retry/raise skeleton is
modelled separately by `save_retry`): archive the current primary file if
it exists, then truncate and rewrite it with one address per line. -/
def save_ips (s : FSState) (t : Timestamp) (ips : List String) : FSState :=
  { archiveStep s t with primary := some (serialize ips) }

/-- The `Archive` step repeated over successive `now()` readings (the backup step
of successive saves). -/
def archiveMany (s : FSState) : List Timestamp → FSState
  | [] => s
  | t :: ts => archiveMany (archiveStep s t) ts

/-! ### Rollback (the POST branch of the `versions` endpoint) -/

/-- The POST branch of `versions`: if the submitted `version_file` is
among `backups`, copy `versions/<version_file>` over the primary file and
report success; otherwise flash "Invalid version selected." and leave the
state alone.  The Boolean is `true` exactly on the rollback path.  The
inner `none` branch (a listed name with no stored content) cannot occur:
`backups` is computed from the same directory contents. -/
def restore (s : FSState) (version_file : String) : FSState × Bool :=
  if (backups s).contains version_file then
    match s.versions.lookup version_file with
    | some content => ({ s with primary := some content }, true)
    | none => (s, false)
  else (s, false)

/-! ### save_ips retry skeleton -/

/-- Outcome of the `save_ips` retry loop: `completed` = the `break` after
a successful attempt, `raised` = the `raise e` after the last attempt
failed.  Both record how many attempts ran and the sleeps (in ms) taken
between attempts. -/
inductive SaveResult where
  | completed (attempts : Nat) (sleepsMs : List Nat)
  | raised (attempts : Nat) (sleepsMs : List Nat)
  deriving DecidableEq

/-- The `for attempt in range(max_retries)` loop of `save_ips` over the
per-attempt failure outcomes: a successful attempt breaks out; a failing
attempt that is not the last sleeps 100 ms and continues; a failing last
attempt re-raises.  The `[]` case is the loop falling off the end, which
cannot happen with the five outcomes `save_retry` passes. -/
def saveRetryAux (attempts : Nat) (sleeps : List Nat) : List Bool → SaveResult
  | [] => .completed attempts sleeps
  | fail :: rest =>
    if fail then
      match rest with
      | [] => .raised (attempts + 1) sleeps
      | _ :: _ => saveRetryAux (attempts + 1) (sleeps ++ [100]) rest
    else .completed (attempts + 1) sleeps

/-- The retry/raise behaviour of one `save_ips` call, `max_retries = 5`.
`outcomes i = true` means the `i`-th attempt raises `IOError`/`OSError`. -/
def save_retry (outcomes : Nat → Bool) : SaveResult :=
  saveRetryAux 0 [] [outcomes 0, outcomes 1, outcomes 2, outcomes 3, outcomes 4]

/-! ### Bridging the executable string comparison to the string order -/

theorem charListLtB_iff : ∀ s t : List Char, charListLtB s t = true ↔ List.Lex (· < ·) s t
  | [], [] => by
    simp only [charListLtB, Bool.false_eq_true, false_iff]
    exact List.Lex.not_nil_right _ _
  | a :: as, [] => by
    simp only [charListLtB, Bool.false_eq_true, false_iff]
    exact List.Lex.not_nil_right _ _
  | [], b :: bs => by
    simp only [charListLtB, true_iff]
    exact List.Lex.nil
  | a :: as, b :: bs => by
    simp only [charListLtB, Bool.or_eq_true, Bool.and_eq_true, decide_eq_true_eq,
      beq_iff_eq, charListLtB_iff as bs]
    constructor
    · rintro (h | ⟨rfl, h⟩)
      · exact List.Lex.rel h
      · exact List.Lex.cons h
    · intro h
      cases h with
      | cons h => exact Or.inr ⟨rfl, h⟩
      | rel h => exact Or.inl h

theorem strLtB_iff (a b : String) : strLtB a b = true ↔ a < b := by
  rw [strLtB, charListLtB_iff, String.lt_iff_toList_lt]
  exact Iff.rfl

/-! ### Lexicographic facts about zero-padded decimal rendering -/

theorem length_padDigits : ∀ w n, (padDigits w n).length = w
  | 0, _ => rfl
  | w + 1, n => by simp [padDigits, length_padDigits w]

theorem digitChar_lt_digitChar : ∀ a, a < 10 → ∀ b, b < 10 → a < b → digitChar a < digitChar b := by
  decide

theorem padDigits_lex : ∀ w n m, n < m → m < 10 ^ w →
    List.Lex (· < ·) (padDigits w n) (padDigits w m) := by
  intro w
  induction w with
  | zero =>
    intro n m h hm
    exact absurd hm (by omega)
  | succ w ih =>
    intro n m h hm
    have hpow : 0 < 10 ^ w := Nat.pos_pow_of_pos w (by omega)
    have hm10 : m / 10 ^ w < 10 := by
      rw [Nat.div_lt_iff_lt_mul hpow]
      calc m < 10 ^ (w + 1) := hm
        _ = 10 * 10 ^ w := by rw [Nat.pow_succ]; ring
    simp only [padDigits]
    rcases Nat.lt_or_ge (n / 10 ^ w) (m / 10 ^ w) with hlt | hge
    · exact List.Lex.rel
        (digitChar_lt_digitChar _ (lt_trans hlt hm10) _ hm10 hlt)
    · have heq : n / 10 ^ w = m / 10 ^ w :=
        le_antisymm (Nat.div_le_div_right (le_of_lt h)) hge
      rw [heq]
      apply List.Lex.cons
      apply ih
      · have h1 := Nat.div_add_mod n (10 ^ w)
        have h2 := Nat.div_add_mod m (10 ^ w)
        rw [heq] at h1
        omega
      · exact Nat.mod_lt _ hpow

theorem lex_append_of_length_eq {r : Char → Char → Prop} :
    ∀ {a b : List Char}, List.Lex r a b → a.length = b.length →
      ∀ u v, List.Lex r (a ++ u) (b ++ v) := by
  intro a b h
  induction h with
  | nil => intro hlen; simp at hlen
  | cons h ih =>
    intro hlen u v
    exact List.Lex.cons (ih (by simpa using hlen) u v)
  | rel h => intro _ u v; exact List.Lex.rel h

/-- One fixed-width field of the timestamp rendering: a strictly smaller
field value wins outright, an equal field value defers to the rest. -/
theorem lex_field {w a b : Nat} {u v : List Char} (hb : b < 10 ^ w)
    (h : a < b ∨ (a = b ∧ List.Lex (· < ·) u v)) :
    List.Lex (· < ·) (padDigits w a ++ u) (padDigits w b ++ v) := by
  rcases h with h | ⟨rfl, h⟩
  · exact lex_append_of_length_eq (padDigits_lex w a b h hb)
      (by simp [length_padDigits]) u v
  · exact List.Lex.append_left _ h _

theorem length_fmtData (t : Timestamp) : t.fmtData.length = 22 := by
  simp [Timestamp.fmtData, length_padDigits]

/-- Chronological order of valid timestamps is lexicographic order of their
`%Y%m%d_%H%M%S_%f` renderings. -/
theorem fmtData_lex_of_before {t₁ t₂ : Timestamp} (hv₁ : t₁.Valid) (hv₂ : t₂.Valid)
    (h : t₁.Before t₂) : List.Lex (· < ·) t₁.fmtData t₂.fmtData := by
  obtain ⟨y₁, mo₁, d₁, h₁, mi₁, s₁, u₁⟩ := t₁
  obtain ⟨y₂, mo₂, d₂, h₂, mi₂, s₂, u₂⟩ := t₂
  simp only [Timestamp.Valid] at hv₁ hv₂
  simp only [Timestamp.Before, Timestamp.key] at h
  simp only [Timestamp.fmtData]
  apply lex_field (by omega)
  rcases Nat.lt_trichotomy y₁ y₂ with hy | hy | hy
  · exact Or.inl hy
  · refine Or.inr ⟨hy, ?_⟩
    apply lex_field (by omega)
    rcases Nat.lt_trichotomy mo₁ mo₂ with hmo | hmo | hmo
    · exact Or.inl hmo
    · refine Or.inr ⟨hmo, ?_⟩
      apply lex_field (by omega)
      rcases Nat.lt_trichotomy d₁ d₂ with hd | hd | hd
      · exact Or.inl hd
      · refine Or.inr ⟨hd, ?_⟩
        apply List.Lex.cons
        apply lex_field (by omega)
        rcases Nat.lt_trichotomy h₁ h₂ with hh | hh | hh
        · exact Or.inl hh
        · refine Or.inr ⟨hh, ?_⟩
          apply lex_field (by omega)
          rcases Nat.lt_trichotomy mi₁ mi₂ with hmi | hmi | hmi
          · exact Or.inl hmi
          · refine Or.inr ⟨hmi, ?_⟩
            apply lex_field (by omega)
            rcases Nat.lt_trichotomy s₁ s₂ with hs | hs | hs
            · exact Or.inl hs
            · refine Or.inr ⟨hs, ?_⟩
              apply List.Lex.cons
              apply padDigits_lex
              · omega
              · omega
            · exact absurd h (by omega)
          · exact absurd h (by omega)
        · exact absurd h (by omega)
      · exact absurd h (by omega)
    · exact absurd h (by omega)
  · exact absurd h (by omega)

/-- Chronological order of valid timestamps gives strict ascending order of
the snapshot filenames: lexicographic filename order is chronological
order. -/
theorem backupName_lt_of_before {t₁ t₂ : Timestamp} (hv₁ : t₁.Valid) (hv₂ : t₂.Valid)
    (h : t₁.Before t₂) : backupName t₁ < backupName t₂ := by
  rw [String.lt_iff_toList_lt]
  show List.Lex (· < ·) (backupName t₁).data (backupName t₂).data
  have hd : ∀ t : Timestamp,
      (backupName t).data = "allowed_ips_".data ++ (t.fmtData ++ ".txt".data) := by
    intro t
    simp [backupName, Timestamp.fmt, String.data_append, List.append_assoc]
  rw [hd, hd]
  apply List.Lex.append_left
  exact lex_append_of_length_eq (fmtData_lex_of_before hv₁ hv₂ h)
    (by rw [length_fmtData, length_fmtData]) _ _

theorem backupName_ne_of_before {t₁ t₂ : Timestamp} (hv₁ : t₁.Valid) (hv₂ : t₂.Valid)
    (h : t₁.Before t₂) : backupName t₁ ≠ backupName t₂ :=
  ne_of_lt (backupName_lt_of_before hv₁ hv₂ h)

/-! ### Facts about the descending sort -/

theorem perm_insertDesc (x : String) : ∀ l : List String, (insertDesc x l).Perm (x :: l)
  | [] => List.Perm.refl _
  | y :: ys => by
    simp only [insertDesc]
    split
    · exact ((perm_insertDesc x ys).cons y).trans (List.Perm.swap x y ys)
    · exact List.Perm.refl _

theorem perm_pySortedDesc : ∀ l : List String, (pySortedDesc l).Perm l
  | [] => List.Perm.refl _
  | x :: xs => (perm_insertDesc x (pySortedDesc xs)).trans ((perm_pySortedDesc xs).cons x)

theorem pairwise_insertDesc (x : String) :
    ∀ {l : List String}, l.Pairwise (fun a b => b ≤ a) →
      (insertDesc x l).Pairwise (fun a b => b ≤ a) := by
  intro l
  induction l with
  | nil => intro _; simp [insertDesc]
  | cons y ys ih =>
    intro h
    rcases List.pairwise_cons.mp h with ⟨hy, ht⟩
    simp only [insertDesc]
    split
    · rename_i hxy
      rw [strLtB_iff] at hxy
      refine List.pairwise_cons.mpr ⟨?_, ih ht⟩
      intro z hz
      rcases List.mem_cons.mp ((perm_insertDesc x ys).mem_iff.mp hz) with rfl | hz
      · exact le_of_lt hxy
      · exact hy z hz
    · rename_i hxy
      rw [strLtB_iff] at hxy
      push_neg at hxy
      refine List.pairwise_cons.mpr ⟨?_, h⟩
      intro z hz
      rcases List.mem_cons.mp hz with rfl | hz
      · exact hxy
      · exact le_trans (hy z hz) hxy

theorem pairwise_pySortedDesc : ∀ l : List String,
    (pySortedDesc l).Pairwise (fun a b => b ≤ a)
  | [] => List.Pairwise.nil
  | x :: xs => pairwise_insertDesc x (pairwise_pySortedDesc xs)

theorem pairwise_gt_pySortedDesc {l : List String} (hn : l.Nodup) :
    (pySortedDesc l).Pairwise (fun a b => b < a) := by
  have hn' : (pySortedDesc l).Nodup := ((perm_pySortedDesc l).symm.nodup hn)
  exact ((pairwise_pySortedDesc l).and hn').imp
    (fun h => lt_of_le_of_ne h.1 (Ne.symm h.2))

theorem indexOf_lt_of_pairwise_gt :
    ∀ {l : List String}, l.Pairwise (fun a b => b < a) →
      ∀ {a b : String}, a ∈ l → b ∈ l → a < b → l.indexOf b < l.indexOf a := by
  intro l
  induction l with
  | nil => intro _ a b ha; simp at ha
  | cons x t ih =>
    intro hs a b ha hb hab
    rcases List.pairwise_cons.mp hs with ⟨hx, ht⟩
    rcases List.mem_cons.mp ha with rfl | ha'
    · rcases List.mem_cons.mp hb with rfl | hb'
      · exact absurd hab (lt_irrefl _)
      · exact absurd hab (not_lt_of_gt (hx b hb'))
    · rcases List.mem_cons.mp hb with rfl | hb'
      · rw [List.indexOf_cons_self, List.indexOf_cons_ne _ (Ne.symm (ne_of_lt hab))]
        exact Nat.succ_pos _
      · rw [List.indexOf_cons_ne _ (ne_of_gt (hx b hb')),
          List.indexOf_cons_ne _ (ne_of_gt (hx a ha'))]
        exact Nat.succ_lt_succ (ih ht ha' hb' hab)

/-! ### Facts about parsing and stripping -/

theorem splitNewlines_sep {ip : List Char} (h : ∀ c ∈ ip, c ≠ '\n') (rest : List Char) :
    splitNewlines (ip ++ '\n' :: rest) = ip :: splitNewlines rest := by
  induction ip with
  | nil => simp [splitNewlines]
  | cons c cs ih =>
    have hc : c ≠ '\n' := h c (List.mem_cons_self c cs)
    rw [List.cons_append]
    simp only [splitNewlines, if_neg hc]
    rw [ih (fun c' hc' => h c' (List.mem_cons_of_mem c hc'))]

theorem splitNewlines_serialize :
    ∀ L : List String, (∀ x ∈ L, ∀ c ∈ x.data, c ≠ '\n') →
      splitNewlines (L.flatMap (fun ip => ip.data ++ ['\n'])) = L.map (·.data) ++ [[]]
  | [], _ => rfl
  | x :: xs, h => by
    rw [List.flatMap_cons, List.append_assoc]
    show splitNewlines (x.data ++ '\n' :: xs.flatMap (fun ip => ip.data ++ ['\n'])) = _
    rw [splitNewlines_sep (h x (List.mem_cons_self x xs)),
      splitNewlines_serialize xs (fun y hy => h y (List.mem_cons_of_mem x hy))]
    rfl

theorem dropWhile_eq_self_of_forall {p : Char → Bool} :
    ∀ {l : List Char}, (∀ c ∈ l, p c = false) → l.dropWhile p = l
  | [], _ => rfl
  | c :: cs, h => by
    simp [List.dropWhile, h c (List.mem_cons_self c cs)]

theorem trimChars_eq_self {l : List Char} (h : ∀ c ∈ l, isWs c = false) :
    trimChars l = l := by
  unfold trimChars
  rw [dropWhile_eq_self_of_forall h,
    dropWhile_eq_self_of_forall (fun c hc => h c (List.mem_reverse.mp hc)),
    List.reverse_reverse]

theorem pyStrip_data_eq_self {x : String} (h : ∀ c ∈ x.data, c.isWhitespace = false) :
    pyStrip ⟨x.data⟩ = x := by
  show (⟨trimChars x.data⟩ : String) = x
  rw [trimChars_eq_self (fun c hc => by simpa [isWs] using h c hc)]

theorem load_parse_serialize (L : List String)
    (h : ∀ x ∈ L, x ≠ "" ∧ ∀ c ∈ x.data, c.isWhitespace = false) :
    load_parse (serialize L) = L := by
  unfold load_parse serialize
  show (((splitNewlines (L.flatMap fun ip => ip.data ++ ['\n'])).map
    (fun l => pyStrip ⟨l⟩)).filter (fun s => s != "")) = L
  rw [splitNewlines_serialize L
    (fun x hx c hc he => by
      have := (h x hx).2 c hc
      rw [he] at this
      simp at this)]
  rw [List.map_append, List.map_map, List.filter_append]
  have hm : L.map ((fun l => pyStrip ⟨l⟩) ∘ (·.data)) = L := by
    conv_rhs => rw [← List.map_id L]
    exact List.map_congr_left (fun x hx => pyStrip_data_eq_self (h x hx).2)
  rw [hm, List.filter_eq_self.mpr (fun x hx => bne_iff_ne.mpr (h x hx).1)]
  rw [show (([[]] : List (List Char)).map (fun l => pyStrip ⟨l⟩)).filter
    (fun s => s != "") = [] from rfl]
  exact List.append_nil L

/-! ### Facts about the load retry loop -/

theorem loadAttempts_isSome (content : String) :
    ∀ l : List Bool, l ≠ [] → (loadAttempts content l).isSome = true
  | [], h => absurd rfl h
  | fail :: rest, _ => by
    simp only [loadAttempts]
    split
    · match rest with
      | [] => rfl
      | b :: bs => exact loadAttempts_isSome content (b :: bs) (by simp)
    · rfl

theorem loadAttempts_all_fail (content : String) :
    ∀ l : List Bool, l ≠ [] → (∀ b ∈ l, b = true) → loadAttempts content l = some []
  | [], h, _ => absurd rfl h
  | fail :: rest, _, hall => by
    have hf : fail = true := hall fail (List.mem_cons_self fail rest)
    simp only [loadAttempts, if_pos hf]
    match rest with
    | [] => rfl
    | b :: bs =>
      exact loadAttempts_all_fail content (b :: bs) (by simp)
        (fun b' hb' => hall b' (List.mem_cons_of_mem fail hb'))

theorem loadAttempts_success (content : String) :
    ∀ l : List Bool, (∃ b ∈ l, b = false) →
      loadAttempts content l = some (load_parse content)
  | [], h => by simp at h
  | fail :: rest, h => by
    by_cases hf : fail = true
    · simp only [loadAttempts, if_pos hf]
      have hrest : ∃ b ∈ rest, b = false := by
        rcases h with ⟨b, hb, hbf⟩
        rcases List.mem_cons.mp hb with rfl | hb'
        · rw [hbf] at hf; exact absurd hf (by simp)
        · exact ⟨b, hb', hbf⟩
      match rest with
      | [] => simp at hrest
      | b :: bs => exact loadAttempts_success content (b :: bs) hrest
    · simp only [loadAttempts, if_neg hf]

theorem loadAttempts_cases (content : String) :
    ∀ l : List Bool, loadAttempts content l = none ∨ loadAttempts content l = some [] ∨
      loadAttempts content l = some (load_parse content)
  | [] => Or.inl rfl
  | fail :: rest => by
    simp only [loadAttempts]
    split
    · match rest with
      | [] => exact Or.inr (Or.inl rfl)
      | b :: bs => exact loadAttempts_cases content (b :: bs)
    · exact Or.inr (Or.inr rfl)

/-! ### No leading or trailing whitespace after a strip -/

theorem head?_dropWhile_false {p : Char → Bool} {l : List Char} {c : Char}
    (h : (l.dropWhile p).head? = some c) : p c = false := by
  have hm := List.head?_dropWhile_not p l
  rw [h] at hm
  exact hm

theorem getLast?_dropWhile_false {p : Char → Bool} {l : List Char} {c : Char}
    (h : (l.dropWhile p).getLast? = some c) : l.getLast? = some c := by
  obtain ⟨u, hu⟩ := List.dropWhile_suffix (l := l) p
  rw [← hu, List.getLast?_append, h]
  rfl

theorem trimChars_edges (l : List Char) :
    (∀ c, (trimChars l).head? = some c → isWs c = false) ∧
    (∀ c, (trimChars l).getLast? = some c → isWs c = false) := by
  unfold trimChars
  constructor
  · intro c hc
    rw [List.head?_reverse] at hc
    have hc' : (l.dropWhile isWs).reverse.getLast? = some c :=
      getLast?_dropWhile_false hc
    rw [List.getLast?_reverse] at hc'
    exact head?_dropWhile_false hc'
  · intro c hc
    rw [List.getLast?_reverse] at hc
    exact head?_dropWhile_false hc

/-! ### Association list and archive helpers -/

theorem mem_map_fst_of_lookup_eq_some :
    ∀ {l : List (String × String)} {k v : String},
      l.lookup k = some v → k ∈ l.map Prod.fst := by
  intro l
  induction l with
  | nil => intro k v h; simp [List.lookup] at h
  | cons p t ih =>
    intro k v h
    rw [List.lookup] at h
    split at h
    · rename_i heq
      simp only [List.map_cons, List.mem_cons]
      exact Or.inl (beq_iff_eq.mp heq)
    · exact List.mem_cons_of_mem _ (ih h)

theorem mem_backups_iff {s : FSState} {n : String} : n ∈ backups s ↔ n ∈ listdir s :=
  (perm_pySortedDesc (listdir s)).mem_iff

theorem length_backups (s : FSState) : (backups s).length = (listdir s).length :=
  (perm_pySortedDesc (listdir s)).length_eq

theorem contains_backups_of_mem {s : FSState} {n : String} (h : n ∈ listdir s) :
    (backups s).contains n = true :=
  List.elem_iff.mpr (mem_backups_iff.mpr h)

theorem archiveMany_spec :
    ∀ (ts : List Timestamp) (s : FSState) (content : String),
      s.primary = some content →
      (archiveMany s ts).primary = some content ∧
      listdir (archiveMany s ts) = (ts.map backupName).reverse ++ listdir s
  | [], s, content, hp => ⟨hp, by simp [archiveMany]⟩
  | t :: ts, s, content, hp => by
    have hstep : archiveStep s t =
        { s with versions := (backupName t, content) :: s.versions } := by
      unfold archiveStep
      rw [hp]
    have hsp : (archiveStep s t).primary = some content := by rw [hstep]; exact hp
    obtain ⟨h1, h2⟩ := archiveMany_spec ts (archiveStep s t) content hsp
    refine ⟨h1, ?_⟩
    show listdir (archiveMany (archiveStep s t) ts) = _
    rw [h2, hstep]
    show (ts.map backupName).reverse ++ backupName t :: listdir s = _
    simp [List.append_assoc]

/-! ### Claim theorems -/

/-- C1: for any sequence L of distinct valid IP-address strings (non-empty,
whitespace-free, as every textual IPv4/IPv6 address is), `save_ips(L)`
followed by a `load_ips()` whose read succeeds within its five attempts
returns exactly L, order and contents preserved. -/
theorem save_load_roundtrip (s : FSState) (t : Timestamp) (L : List String)
    (o : Nat → Bool) (_hnd : L.Nodup)
    (hip : ∀ x ∈ L, x ≠ "" ∧ ∀ c ∈ x.data, c.isWhitespace = false)
    (hread : ∃ k, k < 5 ∧ o k = false) :
    load_ips (save_ips s t L).primary o = some L := by
  have hp : (save_ips s t L).primary = some (serialize L) := rfl
  rw [hp]
  show loadAttempts (serialize L) [o 0, o 1, o 2, o 3, o 4] = some L
  have hex : ∃ b ∈ [o 0, o 1, o 2, o 3, o 4], b = false := by
    rcases hread with ⟨k, hk, hkf⟩
    interval_cases k
    · exact ⟨o 0, by simp, hkf⟩
    · exact ⟨o 1, by simp, hkf⟩
    · exact ⟨o 2, by simp, hkf⟩
    · exact ⟨o 3, by simp, hkf⟩
    · exact ⟨o 4, by simp, hkf⟩
  rw [loadAttempts_success _ _ hex, load_parse_serialize L hip]

theorem save_load_roundtrip_witness :
    load_ips (save_ips ⟨none, []⟩ ⟨2025, 10, 12, 9, 30, 0, 1⟩ ["8.8.8.8", "1.1.1.1"]).primary
      (fun _ => false) = some ["8.8.8.8", "1.1.1.1"] :=
  save_load_roundtrip ⟨none, []⟩ ⟨2025, 10, 12, 9, 30, 0, 1⟩ ["8.8.8.8", "1.1.1.1"]
    (fun _ => false) (by decide) (by decide) ⟨0, by decide, rfl⟩

/-- C2: a `save_ips` on a pre-existing primary file adds exactly one new
identifier to `List()` (the timestamped backup name, fresh because
timestamp keys never repeat), keeps every previous identifier, and
restoring the new identifier reproduces the pre-save content
byte-for-byte. -/
theorem save_archive_growth (s : FSState) (t : Timestamp) (ips : List String)
    (content : String) (hp : s.primary = some content)
    (hfresh : backupName t ∉ listdir s) :
    (backups (save_ips s t ips)).length = (backups s).length + 1 ∧
    backupName t ∈ backups (save_ips s t ips) ∧
    backupName t ∉ backups s ∧
    (∀ n ∈ backups s, n ∈ backups (save_ips s t ips)) ∧
    restore (save_ips s t ips) (backupName t) =
      ({ save_ips s t ips with primary := some content }, true) := by
  have hv' : (save_ips s t ips).versions = (backupName t, content) :: s.versions := by
    unfold save_ips archiveStep
    rw [hp]
  have hl' : listdir (save_ips s t ips) = backupName t :: listdir s := by
    unfold listdir
    rw [hv']
    rfl
  refine ⟨?_, ?_, ?_, ?_, ?_⟩
  · rw [length_backups, length_backups, hl']
    rfl
  · exact mem_backups_iff.mpr (by rw [hl']; exact List.mem_cons_self _ _)
  · exact fun hmem => hfresh (mem_backups_iff.mp hmem)
  · intro n hn
    exact mem_backups_iff.mpr
      (by rw [hl']; exact List.mem_cons_of_mem _ (mem_backups_iff.mp hn))
  · unfold restore
    rw [if_pos (contains_backups_of_mem (by rw [hl']; exact List.mem_cons_self _ _))]
    rw [hv']
    simp [List.lookup]
    exact hv'.symm

theorem save_archive_growth_witness :
    (backups (save_ips ⟨some "1.1.1.1\n", []⟩ ⟨2025, 10, 12, 9, 30, 0, 1⟩
        ["1.1.1.1", "2.2.2.2"])).length = (backups ⟨some "1.1.1.1\n", []⟩).length + 1 ∧
    backupName ⟨2025, 10, 12, 9, 30, 0, 1⟩ ∈
      backups (save_ips ⟨some "1.1.1.1\n", []⟩ ⟨2025, 10, 12, 9, 30, 0, 1⟩
        ["1.1.1.1", "2.2.2.2"]) ∧
    backupName ⟨2025, 10, 12, 9, 30, 0, 1⟩ ∉ backups ⟨some "1.1.1.1\n", []⟩ ∧
    (∀ n ∈ backups ⟨some "1.1.1.1\n", []⟩,
      n ∈ backups (save_ips ⟨some "1.1.1.1\n", []⟩ ⟨2025, 10, 12, 9, 30, 0, 1⟩
        ["1.1.1.1", "2.2.2.2"])) ∧
    restore (save_ips ⟨some "1.1.1.1\n", []⟩ ⟨2025, 10, 12, 9, 30, 0, 1⟩
        ["1.1.1.1", "2.2.2.2"]) (backupName ⟨2025, 10, 12, 9, 30, 0, 1⟩) =
      ({ save_ips ⟨some "1.1.1.1\n", []⟩ ⟨2025, 10, 12, 9, 30, 0, 1⟩
          ["1.1.1.1", "2.2.2.2"] with primary := some "1.1.1.1\n" }, true) :=
  save_archive_growth ⟨some "1.1.1.1\n", []⟩ ⟨2025, 10, 12, 9, 30, 0, 1⟩
    ["1.1.1.1", "2.2.2.2"] "1.1.1.1\n" rfl (by decide)

/-- C3: rolling back to an identifier that is present in the listing
succeeds, and a subsequent `load_ips` (whose read succeeds within its five
attempts) returns exactly the parse of the archived bytes. -/
theorem restore_then_load (s : FSState) (vf : String) (content : String)
    (o : Nat → Bool) (hl : s.versions.lookup vf = some content)
    (hread : ∃ k, k < 5 ∧ o k = false) :
    (restore s vf).2 = true ∧
    load_ips (restore s vf).1.primary o = some (load_parse content) := by
  have hres : restore s vf = ({ s with primary := some content }, true) := by
    unfold restore
    rw [if_pos (contains_backups_of_mem (mem_map_fst_of_lookup_eq_some hl)), hl]
  rw [hres]
  refine ⟨rfl, ?_⟩
  show loadAttempts content [o 0, o 1, o 2, o 3, o 4] = some (load_parse content)
  apply loadAttempts_success
  rcases hread with ⟨k, hk, hkf⟩
  interval_cases k
  · exact ⟨o 0, by simp, hkf⟩
  · exact ⟨o 1, by simp, hkf⟩
  · exact ⟨o 2, by simp, hkf⟩
  · exact ⟨o 3, by simp, hkf⟩
  · exact ⟨o 4, by simp, hkf⟩

theorem restore_then_load_witness :
    (restore ⟨some "9.9.9.9\n", [("allowed_ips_20250101_120000_000001.txt", "7.7.7.7\n")]⟩
      "allowed_ips_20250101_120000_000001.txt").2 = true ∧
    load_ips (restore ⟨some "9.9.9.9\n",
        [("allowed_ips_20250101_120000_000001.txt", "7.7.7.7\n")]⟩
      "allowed_ips_20250101_120000_000001.txt").1.primary (fun _ => false) =
      some (load_parse "7.7.7.7\n") :=
  restore_then_load ⟨some "9.9.9.9\n",
      [("allowed_ips_20250101_120000_000001.txt", "7.7.7.7\n")]⟩
    "allowed_ips_20250101_120000_000001.txt" "7.7.7.7\n" (fun _ => false)
    (by decide) ⟨0, by decide, rfl⟩

/-- C4: submitting an identifier that is not in the listing flashes
"Invalid version selected." and changes nothing: no copy onto the primary
file occurs and the whole state is unchanged. -/
theorem restore_not_found (s : FSState) (vf : String) (h : vf ∉ listdir s) :
    restore s vf = (s, false) := by
  unfold restore
  rw [if_neg (fun hc => h (mem_backups_iff.mp (List.elem_iff.mp hc)))]

theorem restore_not_found_witness :
    restore ⟨some "9.9.9.9\n", [("allowed_ips_20250101_120000_000001.txt", "7.7.7.7\n")]⟩
      "no_such_version.txt" =
    (⟨some "9.9.9.9\n", [("allowed_ips_20250101_120000_000001.txt", "7.7.7.7\n")]⟩, false) :=
  restore_not_found ⟨some "9.9.9.9\n",
      [("allowed_ips_20250101_120000_000001.txt", "7.7.7.7\n")]⟩
    "no_such_version.txt" (by decide)

/-- C5: `load_ips` never propagates an error: it always returns a list
(never falls through), returns `[]` when the primary file does not exist,
and returns `[]` (instead of raising) when all five read/lock attempts
fail. -/
theorem load_never_raises (primary : Option String) (o : Nat → Bool) :
    (load_ips primary o).isSome = true ∧
    (primary = none → load_ips primary o = some []) ∧
    ((∀ i, i < 5 → o i = true) → load_ips primary o = some []) := by
  refine ⟨?_, ?_, ?_⟩
  · cases primary with
    | none => rfl
    | some c => exact loadAttempts_isSome c _ (by simp)
  · rintro rfl; rfl
  · intro hall
    cases primary with
    | none => rfl
    | some c =>
      apply loadAttempts_all_fail c _ (by simp)
      intro b hb
      simp only [List.mem_cons, List.not_mem_nil, or_false] at hb
      rcases hb with rfl | rfl | rfl | rfl | rfl
      · exact hall 0 (by omega)
      · exact hall 1 (by omega)
      · exact hall 2 (by omega)
      · exact hall 3 (by omega)
      · exact hall 4 (by omega)

theorem load_never_raises_witness :
    load_ips none (fun _ => true) = some [] ∧
    load_ips (some "8.8.8.8\n") (fun _ => true) = some [] :=
  ⟨(load_never_raises none (fun _ => true)).2.1 rfl,
   (load_never_raises (some "8.8.8.8\n") (fun _ => true)).2.2 (fun _ _ => rfl)⟩

/-- C6: the `save_ips` retry loop runs at most 5 attempts with a 100 ms
sleep between consecutive attempts; if all five fail it re-raises the
error (never returns silently), and if attempt k is the first to succeed
it stops after k+1 attempts. -/
theorem save_raises_after_retries (o : Nat → Bool) :
    ((∀ i, i < 5 → o i = true) → save_retry o = .raised 5 [100, 100, 100, 100]) ∧
    (∀ k, k < 5 → o k = false → (∀ i, i < k → o i = true) →
      save_retry o = .completed (k + 1) (List.replicate k 100)) := by
  constructor
  · intro h
    unfold save_retry
    rw [h 0 (by omega), h 1 (by omega), h 2 (by omega), h 3 (by omega), h 4 (by omega)]
    rfl
  · intro k hk hkf hprev
    interval_cases k
    · unfold save_retry
      rw [hkf]
      rfl
    · unfold save_retry
      rw [hprev 0 (by omega), hkf]
      rfl
    · unfold save_retry
      rw [hprev 0 (by omega), hprev 1 (by omega), hkf]
      rfl
    · unfold save_retry
      rw [hprev 0 (by omega), hprev 1 (by omega), hprev 2 (by omega), hkf]
      rfl
    · unfold save_retry
      rw [hprev 0 (by omega), hprev 1 (by omega), hprev 2 (by omega),
        hprev 3 (by omega), hkf]
      rfl

theorem save_raises_after_retries_witness :
    save_retry (fun _ => true) = .raised 5 [100, 100, 100, 100] ∧
    save_retry (fun i => decide (i < 2)) = .completed 3 (List.replicate 2 100) :=
  ⟨(save_raises_after_retries (fun _ => true)).1 (fun _ _ => rfl),
   (save_raises_after_retries (fun i => decide (i < 2))).2 2 (by decide) (by decide)
     (fun i hi => by interval_cases i <;> rfl)⟩

/-- C7: the `versions` listing is strictly descending in lexicographic
filename order, and for valid timestamps lexicographic order equals
chronological order, so a snapshot created earlier appears strictly after
a snapshot created later (most-recent-first). -/
theorem versions_sorted_most_recent_first (s : FSState) (hnd : (listdir s).Nodup) :
    (∀ n, n ∈ backups s ↔ n ∈ listdir s) ∧
    (backups s).Pairwise (fun a b => b < a) ∧
    (∀ t₁ t₂ : Timestamp, t₁.Valid → t₂.Valid → t₁.Before t₂ →
      backupName t₁ ∈ listdir s → backupName t₂ ∈ listdir s →
      (backups s).indexOf (backupName t₂) < (backups s).indexOf (backupName t₁)) := by
  have hpw := pairwise_gt_pySortedDesc hnd
  refine ⟨fun n => mem_backups_iff, hpw, ?_⟩
  intro t₁ t₂ hv₁ hv₂ hb h₁ h₂
  exact indexOf_lt_of_pairwise_gt hpw (mem_backups_iff.mpr h₁) (mem_backups_iff.mpr h₂)
    (backupName_lt_of_before hv₁ hv₂ hb)

theorem versions_sorted_most_recent_first_witness :
    (backupName ⟨2025, 1, 1, 12, 0, 0, 2⟩ ∈
        backups ⟨none, [(backupName ⟨2025, 1, 1, 12, 0, 0, 1⟩, "a\n"),
          (backupName ⟨2025, 1, 1, 12, 0, 0, 2⟩, "b\n")]⟩ ↔
      backupName ⟨2025, 1, 1, 12, 0, 0, 2⟩ ∈
        listdir ⟨none, [(backupName ⟨2025, 1, 1, 12, 0, 0, 1⟩, "a\n"),
          (backupName ⟨2025, 1, 1, 12, 0, 0, 2⟩, "b\n")]⟩) ∧
    (backups ⟨none, [(backupName ⟨2025, 1, 1, 12, 0, 0, 1⟩, "a\n"),
        (backupName ⟨2025, 1, 1, 12, 0, 0, 2⟩, "b\n")]⟩).Pairwise
      (fun a b => b < a) ∧
    (backups ⟨none, [(backupName ⟨2025, 1, 1, 12, 0, 0, 1⟩, "a\n"),
        (backupName ⟨2025, 1, 1, 12, 0, 0, 2⟩, "b\n")]⟩).indexOf
      (backupName ⟨2025, 1, 1, 12, 0, 0, 2⟩) <
    (backups ⟨none, [(backupName ⟨2025, 1, 1, 12, 0, 0, 1⟩, "a\n"),
        (backupName ⟨2025, 1, 1, 12, 0, 0, 2⟩, "b\n")]⟩).indexOf
      (backupName ⟨2025, 1, 1, 12, 0, 0, 1⟩) :=
  ⟨(versions_sorted_most_recent_first ⟨none, [(backupName ⟨2025, 1, 1, 12, 0, 0, 1⟩, "a\n"),
      (backupName ⟨2025, 1, 1, 12, 0, 0, 2⟩, "b\n")]⟩ (by decide)).1
     (backupName ⟨2025, 1, 1, 12, 0, 0, 2⟩),
   (versions_sorted_most_recent_first ⟨none, [(backupName ⟨2025, 1, 1, 12, 0, 0, 1⟩, "a\n"),
      (backupName ⟨2025, 1, 1, 12, 0, 0, 2⟩, "b\n")]⟩ (by decide)).2.1,
   (versions_sorted_most_recent_first ⟨none, [(backupName ⟨2025, 1, 1, 12, 0, 0, 1⟩, "a\n"),
      (backupName ⟨2025, 1, 1, 12, 0, 0, 2⟩, "b\n")]⟩ (by decide)).2.2
     ⟨2025, 1, 1, 12, 0, 0, 1⟩ ⟨2025, 1, 1, 12, 0, 0, 2⟩
     (by decide) (by decide) (by decide) (by decide) (by decide)⟩

/-- C8: N archive steps performed at strictly increasing `now()` readings
(in particular N rapid archives within the same wall-clock second, which
differ only in microseconds) produce N pairwise distinct snapshot
filenames, and starting from an empty snapshot directory the listing
afterwards has exactly N entries. -/
theorem rapid_archives_distinct (s : FSState) (content : String) (ts : List Timestamp)
    (hp : s.primary = some content) (hv : s.versions = [])
    (hvalid : ∀ t ∈ ts, t.Valid) (hmono : ts.Pairwise Timestamp.Before) :
    (ts.map backupName).Nodup ∧
    listdir (archiveMany s ts) = (ts.map backupName).reverse ∧
    (backups (archiveMany s ts)).length = ts.length := by
  have hnd : (ts.map backupName).Nodup := by
    show (ts.map backupName).Pairwise (· ≠ ·)
    rw [List.pairwise_map]
    exact hmono.imp_of_mem
      (fun ha hb h => backupName_ne_of_before (hvalid _ ha) (hvalid _ hb) h)
  obtain ⟨hprim, hlist⟩ := archiveMany_spec ts s content hp
  have hl : listdir (archiveMany s ts) = (ts.map backupName).reverse := by
    rw [hlist]
    show _ ++ s.versions.map Prod.fst = _
    rw [hv]
    exact List.append_nil _
  refine ⟨hnd, hl, ?_⟩
  rw [length_backups, hl, List.length_reverse, List.length_map]

theorem rapid_archives_distinct_witness :
    ([⟨2025, 1, 1, 12, 0, 0, 1⟩, ⟨2025, 1, 1, 12, 0, 0, 2⟩,
        (⟨2025, 1, 1, 12, 0, 0, 3⟩ : Timestamp)].map backupName).Nodup ∧
    listdir (archiveMany ⟨some "8.8.8.8\n", []⟩
      [⟨2025, 1, 1, 12, 0, 0, 1⟩, ⟨2025, 1, 1, 12, 0, 0, 2⟩, ⟨2025, 1, 1, 12, 0, 0, 3⟩]) =
      ([⟨2025, 1, 1, 12, 0, 0, 1⟩, ⟨2025, 1, 1, 12, 0, 0, 2⟩,
        (⟨2025, 1, 1, 12, 0, 0, 3⟩ : Timestamp)].map backupName).reverse ∧
    (backups (archiveMany ⟨some "8.8.8.8\n", []⟩
      [⟨2025, 1, 1, 12, 0, 0, 1⟩, ⟨2025, 1, 1, 12, 0, 0, 2⟩,
        ⟨2025, 1, 1, 12, 0, 0, 3⟩])).length = 3 :=
  rapid_archives_distinct ⟨some "8.8.8.8\n", []⟩ "8.8.8.8\n"
    [⟨2025, 1, 1, 12, 0, 0, 1⟩, ⟨2025, 1, 1, 12, 0, 0, 2⟩, ⟨2025, 1, 1, 12, 0, 0, 3⟩]
    rfl rfl (by decide) (by decide)

/-- C9: a successful rollback copies the snapshot's bytes over the primary
file and touches nothing else: the versions directory, and hence the
`List()` result, are exactly the same before and after. -/
theorem restore_no_new_snapshot (s : FSState) (vf : String) (content : String)
    (hl : s.versions.lookup vf = some content) :
    restore s vf = ({ s with primary := some content }, true) ∧
    (restore s vf).1.versions = s.versions ∧
    backups (restore s vf).1 = backups s := by
  have hres : restore s vf = ({ s with primary := some content }, true) := by
    unfold restore
    rw [if_pos (contains_backups_of_mem (mem_map_fst_of_lookup_eq_some hl)), hl]
  rw [hres]
  exact ⟨rfl, rfl, rfl⟩

theorem restore_no_new_snapshot_witness :
    restore ⟨some "9.9.9.9\n", [("allowed_ips_20250101_120000_000001.txt", "7.7.7.7\n")]⟩
      "allowed_ips_20250101_120000_000001.txt" =
      ({ (⟨some "9.9.9.9\n", [("allowed_ips_20250101_120000_000001.txt", "7.7.7.7\n")]⟩ :
          FSState) with primary := some "7.7.7.7\n" }, true) ∧
    (restore ⟨some "9.9.9.9\n", [("allowed_ips_20250101_120000_000001.txt", "7.7.7.7\n")]⟩
      "allowed_ips_20250101_120000_000001.txt").1.versions =
      [("allowed_ips_20250101_120000_000001.txt", "7.7.7.7\n")] ∧
    backups (restore ⟨some "9.9.9.9\n",
        [("allowed_ips_20250101_120000_000001.txt", "7.7.7.7\n")]⟩
      "allowed_ips_20250101_120000_000001.txt").1 =
      backups ⟨some "9.9.9.9\n", [("allowed_ips_20250101_120000_000001.txt", "7.7.7.7\n")]⟩ :=
  restore_no_new_snapshot ⟨some "9.9.9.9\n",
      [("allowed_ips_20250101_120000_000001.txt", "7.7.7.7\n")]⟩
    "allowed_ips_20250101_120000_000001.txt" "7.7.7.7\n" (by decide)

/-- C10: whatever the primary file contains, every element of a list
returned by `load_ips` is non-empty and carries no leading or trailing
whitespace: blank lines are dropped and each kept line is stripped. -/
theorem load_result_elems_stripped (content : String) (o : Nat → Bool)
    (r : List String) (h : load_ips (some content) o = some r) :
    ∀ x ∈ r, x ≠ "" ∧
      (∀ c, x.data.head? = some c → c.isWhitespace = false) ∧
      (∀ c, x.data.getLast? = some c → c.isWhitespace = false) := by
  have h' : loadAttempts content [o 0, o 1, o 2, o 3, o 4] = some r := h
  have hcases := loadAttempts_cases content [o 0, o 1, o 2, o 3, o 4]
  rw [h'] at hcases
  rcases hcases with hc | hc | hc
  · exact absurd hc (by simp)
  · have : r = [] := by injection hc
    subst this
    intro x hx
    simp at hx
  · have : r = load_parse content := by injection hc
    subst this
    intro x hx
    unfold load_parse at hx
    rcases List.mem_filter.mp hx with ⟨hxm, hxne⟩
    have hne : x ≠ "" := bne_iff_ne.mp hxne
    rcases List.mem_map.mp hxm with ⟨l, _hl, rfl⟩
    refine ⟨hne, ?_, ?_⟩
    · intro c hc'
      have he : (trimChars l).head? = some c := hc'
      have := (trimChars_edges l).1 c he
      simpa [isWs] using this
    · intro c hc'
      have he : (trimChars l).getLast? = some c := hc'
      have := (trimChars_edges l).2 c he
      simpa [isWs] using this

theorem load_result_elems_stripped_witness :
    "8.8.8.8" ≠ "" ∧
    (∀ c, ("8.8.8.8" : String).data.head? = some c → c.isWhitespace = false) ∧
    (∀ c, ("8.8.8.8" : String).data.getLast? = some c → c.isWhitespace = false) :=
  load_result_elems_stripped "  8.8.8.8  \n\n" (fun _ => false) ["8.8.8.8"]
    (by decide) "8.8.8.8" (by decide)

end NFGui
